import Mathlib

/-!
Verification of the hypercube generation and projection logic of
`src/App.tsx` (`generateHypercube` and the `projectedVertices` memo).

The generator is embedded as a computable function on `ℤ` dimensions with
rational coordinates (the source uses the exact values `0.5` / `-0.5`);
bitwise operations `(i >> j) & 1`, `1 << j` and `i ^ (1 << j)` are embedded
as `Nat.testBit`, `2 ^ j` and `Nat.xor`.  The projector is real-valued since
the source computes with `Math.cos` / `Math.sin`.
-/

namespace HypercubeApp

/-- Coordinate `j` of vertex `i`: source line `point.push((i >> j) & 1 ? 0.5 : -0.5)`. -/
def vertexCoord (i j : ℕ) : ℚ :=
  if Nat.testBit i j then 0.5 else -0.5

/-- The vertex with index `i` of the `d`-dimensional hypercube: the inner
vertex loop of `generateHypercube`, coordinates for `j = 0, …, d-1`. -/
def hcVertex (d i : ℕ) : List ℚ :=
  (List.range d).map (vertexCoord i)

/-- The edge list built by the double loop of `generateHypercube`:
for each `i < 2^d` and each bit `j < d`, `neighbor = i ^ (1 << j)` and the
pair `(i, neighbor)` is emitted iff `i < neighbor`. -/
def hcEdges (d : ℕ) : List (ℕ × ℕ) :=
  (List.range (2 ^ d)).flatMap (fun i =>
    (List.range d).filterMap (fun j =>
      let neighbor := i ^^^ 2 ^ j
      if i < neighbor then some (i, neighbor) else none))

/-- Embedding of `generateHypercube` from `src/App.tsx`: dimensions below 1
are special-cased (`0` gives the single vertex `[0]`, negative gives empty
lists), otherwise `2^d` vertices in binary index order and the edge list of
the double loop. -/
def generateHypercube (dimension : ℤ) : List (List ℚ) × List (ℕ × ℕ) :=
  if dimension < 1 then
    if dimension = 0 then ([[0]], []) else ([], [])
  else
    ((List.range (2 ^ dimension.toNat)).map (hcVertex dimension.toNat),
      hcEdges dimension.toNat)

/-- Embedding of the `projectedVertices` computation of `src/App.tsx`:
fixed point lists for dimensions 0, 1 and 2, otherwise the angular
projection `x = Σ p_k·cos(πk/(d-1.5))`, `y = Σ p_k·sin(πk/(d-1.5))`,
both scaled by `size · 2.2 / (d - 1)`.  Real-valued (`Real.cos`,
`Real.sin`), hence noncomputable. -/
noncomputable def projectedVertices (vertices : List (List ℝ)) (dimension : ℤ)
    (size : ℝ) : List (ℝ × ℝ) :=
  if dimension = 0 then [(0, 0)]
  else if dimension = 1 then [(-(size / 2), 0), (size / 2, 0)]
  else if dimension = 2 then
    [(-(size / 2), -(size / 2)), (size / 2, -(size / 2)),
      (-(size / 2), size / 2), (size / 2, size / 2)]
  else
    vertices.map (fun point =>
      let x := ∑ k ∈ Finset.range dimension.toNat,
        point.getD k 0 * Real.cos (Real.pi * k / ((dimension : ℝ) - 1.5))
      let y := ∑ k ∈ Finset.range dimension.toNat,
        point.getD k 0 * Real.sin (Real.pi * k / ((dimension : ℝ) - 1.5))
      let scaleFactor := size * 2.2 / ((dimension : ℝ) - 1)
      (x * scaleFactor, y * scaleFactor))

/-- The vertex list of `generateHypercube`, cast to real coordinates: this is
the value the component feeds from the generator into the projector. -/
noncomputable def generatedVerticesReal (dimension : ℤ) : List (List ℝ) :=
  (generateHypercube dimension).1.map (fun p => p.map (fun c => (c : ℝ)))

/-! ### Basic shape lemmas -/

theorem generateHypercube_pos (d : ℤ) (hd : 1 ≤ d) :
    generateHypercube d =
      ((List.range (2 ^ d.toNat)).map (hcVertex d.toNat), hcEdges d.toNat) := by
  rw [generateHypercube, if_neg (by omega)]

theorem vertices_length (d : ℤ) (hd : 0 ≤ d) :
    (generateHypercube d).1.length = 2 ^ d.toNat := by
  rcases lt_or_le d 1 with h | h
  · have h0 : d = 0 := by omega
    subst h0
    rfl
  · rw [generateHypercube_pos d h]
    simp

/-! ### C1: vertex count -/

/-- C1: for every dimension `d ≥ 0`, `generateHypercube d` returns exactly
`2^d` vertices (in particular one vertex for `d = 0`). -/
theorem generate_vertex_count (d : ℤ) (hd : 0 ≤ d) :
    (generateHypercube d).1.length = 2 ^ d.toNat :=
  vertices_length d hd

/-- Witness for C1 at `d = 3`. -/
theorem generate_vertex_count_w :
    (0 : ℤ) ≤ 3 ∧ (generateHypercube 3).1.length = 2 ^ (3 : ℤ).toNat :=
  ⟨by norm_num, generate_vertex_count 3 (by norm_num)⟩

/-! ### C8: negative dimension -/

/-- C8: for every dimension `d < 0`, `generateHypercube d` returns an empty
vertex list and an empty edge list (total function, no error). -/
theorem generate_negative_dim (d : ℤ) (hd : d < 0) :
    (generateHypercube d).1 = [] ∧ (generateHypercube d).2 = [] := by
  rw [generateHypercube, if_pos (by omega), if_neg (by omega)]
  exact ⟨rfl, rfl⟩

/-- Witness for C8 at `d = -1`. -/
theorem generate_negative_dim_w :
    (-1 : ℤ) < 0 ∧ (generateHypercube (-1)).1 = [] ∧ (generateHypercube (-1)).2 = [] :=
  ⟨by norm_num, generate_negative_dim (-1) (by norm_num)⟩

/-! ### Edge structure lemmas -/

/-- The loop guard `i < neighbor` with `neighbor = i ^ (1 << j)` holds
exactly when bit `j` of `i` is clear. -/
theorem lt_xor_two_pow_iff (i j : ℕ) :
    i < i ^^^ 2 ^ j ↔ Nat.testBit i j = false := by
  constructor
  · intro h
    by_contra hb
    have hb' : Nat.testBit i j = true := by
      cases hx : Nat.testBit i j with
      | false => exact absurd hx hb
      | true => rfl
    have hlt : i ^^^ 2 ^ j < i := by
      refine Nat.lt_of_testBit j ?_ hb' ?_
      · simp [Nat.testBit_xor, hb', Nat.testBit_two_pow_self]
      · intro k hk
        simp [Nat.testBit_xor, Nat.testBit_two_pow_of_ne (Nat.ne_of_lt hk)]
    omega
  · intro hb
    refine Nat.lt_of_testBit j hb ?_ ?_
    · simp [Nat.testBit_xor, hb, Nat.testBit_two_pow_self]
    · intro k hk
      simp [Nat.testBit_xor, Nat.testBit_two_pow_of_ne (Nat.ne_of_lt hk)]

/-- Membership in the generated edge list: exactly the pairs `(a, b)` of
vertex indices with `a < b`, `b < 2^d`, whose indices differ in exactly one
bit (their xor is a power of two). -/
theorem mem_hcEdges {d a b : ℕ} :
    (a, b) ∈ hcEdges d ↔ a < b ∧ b < 2 ^ d ∧ ∃ j, a ^^^ b = 2 ^ j := by
  rw [hcEdges]
  simp only [List.mem_flatMap, List.mem_filterMap, List.mem_range]
  constructor
  · rintro ⟨i, hi, j, hj, hij⟩
    by_cases hlt : i < i ^^^ 2 ^ j
    · rw [if_pos hlt] at hij
      have hp : (i, i ^^^ 2 ^ j) = (a, b) := Option.some_injective _ hij
      have ha : i = a := congrArg Prod.fst hp
      have hbv : i ^^^ 2 ^ j = b := congrArg Prod.snd hp
      subst ha
      subst hbv
      refine ⟨hlt, ?_, j, Nat.xor_cancel_left i (2 ^ j)⟩
      exact Nat.xor_lt_two_pow hi ((Nat.pow_lt_pow_iff_right (by norm_num)).mpr hj)
    · rw [if_neg hlt] at hij
      cases hij
  · rintro ⟨hab, hb2, j, hxor⟩
    have ha2 : a < 2 ^ d := lt_trans hab hb2
    have hbeq : b = a ^^^ 2 ^ j := by
      have hc := Nat.xor_cancel_left a b
      rw [hxor] at hc
      exact hc.symm
    have hjd : j < d := by
      have h2 : (2 : ℕ) ^ j < 2 ^ d := by
        rw [← hxor]
        exact Nat.xor_lt_two_pow ha2 hb2
      exact (Nat.pow_lt_pow_iff_right (by norm_num)).mp h2
    subst hbeq
    exact ⟨a, ha2, j, hjd, by rw [if_pos hab]⟩

/-- Every edge produced by the inner loop for source vertex `i` has first
component `i`. -/
theorem mem_inner_fst {d i : ℕ} {p : ℕ × ℕ}
    (hp : p ∈ (List.range d).filterMap (fun j =>
      let neighbor := i ^^^ 2 ^ j
      if i < neighbor then some (i, neighbor) else none)) : p.1 = i := by
  simp only [List.mem_filterMap, List.mem_range] at hp
  obtain ⟨j, hj, hij⟩ := hp
  by_cases hlt : i < i ^^^ 2 ^ j
  · rw [if_pos hlt] at hij
    have hp2 : (i, i ^^^ 2 ^ j) = p := Option.some_injective _ hij
    rw [← hp2]
  · rw [if_neg hlt] at hij
    cases hij

/-- The generated edge list has no duplicates. -/
theorem hcEdges_nodup (d : ℕ) : (hcEdges d).Nodup := by
  rw [hcEdges, List.nodup_flatMap]
  constructor
  · intro i _
    refine List.Nodup.filterMap ?_ (List.nodup_range d)
    intro j j' p hp hp'
    dsimp only at hp hp'
    by_cases hlt : i < i ^^^ 2 ^ j
    · by_cases hlt' : i < i ^^^ 2 ^ j'
      · rw [if_pos hlt] at hp
        rw [if_pos hlt'] at hp'
        have h1 : (i, i ^^^ 2 ^ j) = p := Option.some_injective _ hp
        have h2 : (i, i ^^^ 2 ^ j') = p := Option.some_injective _ hp'
        have hx : i ^^^ 2 ^ j = i ^^^ 2 ^ j' := by
          have := h1.trans h2.symm
          exact congrArg Prod.snd this
        have hpow : (2 : ℕ) ^ j = 2 ^ j' := Nat.xor_right_inj.mp hx
        exact Nat.pow_right_injective (by norm_num) hpow
      · rw [if_neg hlt'] at hp'
        cases hp'
    · rw [if_neg hlt] at hp
      cases hp
  · refine (List.pairwise_lt_range (2 ^ d)).imp ?_
    intro i i' hii p hp hp'
    have h1 := mem_inner_fst hp
    have h2 := mem_inner_fst hp'
    omega

/-- A member of a duplicate-free list is counted exactly once. -/
theorem count_one_of_nodup_mem {α : Type} [BEq α] [LawfulBEq α] {l : List α}
    {a : α} (hn : l.Nodup) (hm : a ∈ l) : l.count a = 1 := by
  induction l with
  | nil => cases hm
  | cons q l ih =>
    rcases List.mem_cons.mp hm with rfl | hm2
    · have hq : l.count a = 0 := by
        rw [List.count_eq_zero]
        exact (List.nodup_cons.mp hn).1
      simp [List.count_cons, hq]
    · have hne : a ≠ q := by
        rintro rfl
        exact (List.nodup_cons.mp hn).1 hm2
      rw [List.count_cons, ih (List.nodup_cons.mp hn).2 hm2]
      simp [Ne.symm hne]

/-! ### C4: edge list characterization -/

/-- C4: for `d ≥ 1`, every edge `(i, j)` of `generateHypercube d` satisfies
`i < j` and the indices differ in exactly one bit (their xor is a power of
two); conversely every such undirected one-bit-differing pair of vertex
indices below `2^d` appears exactly once in the edge list. -/
theorem generate_edges_once (d : ℤ) (hd : 1 ≤ d) :
    (∀ p ∈ (generateHypercube d).2, p.1 < p.2 ∧ ∃ j, p.1 ^^^ p.2 = 2 ^ j) ∧
      ∀ a b : ℕ, a < b → b < 2 ^ d.toNat → (∃ j, a ^^^ b = 2 ^ j) →
        (generateHypercube d).2.count (a, b) = 1 := by
  rw [generateHypercube_pos d hd]
  constructor
  · rintro ⟨a, b⟩ hp
    have h := mem_hcEdges.mp hp
    exact ⟨h.1, h.2.2⟩
  · intro a b hab hb2 hj
    exact count_one_of_nodup_mem (hcEdges_nodup d.toNat)
      (mem_hcEdges.mpr ⟨hab, hb2, hj⟩)

/-- Witness for C4 at `d = 2`: the pair `(0, 1)` differs in bit 0 and
appears exactly once. -/
theorem generate_edges_once_w :
    (1 : ℤ) ≤ 2 ∧ (0 : ℕ) < 1 ∧ 1 < 2 ^ (2 : ℤ).toNat ∧
      (0 : ℕ) ^^^ 1 = 2 ^ 0 ∧ (generateHypercube 2).2.count (0, 1) = 1 :=
  ⟨by norm_num, by norm_num, by decide, by decide,
    (generate_edges_once 2 (by norm_num)).2 0 1 (by norm_num) (by decide)
      ⟨0, by decide⟩⟩

/-! ### C9: no self-edges, indices in range -/

/-- C9: for every dimension, every edge of `generateHypercube d` joins two
distinct indices, and both indices are valid positions in the returned
vertex list. -/
theorem edge_indices_valid (d : ℤ) (p : ℕ × ℕ)
    (hp : p ∈ (generateHypercube d).2) :
    p.1 ≠ p.2 ∧ p.1 < (generateHypercube d).1.length ∧
      p.2 < (generateHypercube d).1.length := by
  rcases lt_or_le d 1 with h | h
  · exfalso
    rcases eq_or_ne d 0 with h0 | h0
    · subst h0
      simp [generateHypercube] at hp
    · rw [generateHypercube, if_pos h, if_neg h0] at hp
      simp at hp
  · rw [generateHypercube_pos d h] at hp ⊢
    obtain ⟨a, b⟩ := p
    have hm := mem_hcEdges.mp hp
    have h1 := hm.1
    have h2 := hm.2.1
    have hlen : ((List.range (2 ^ d.toNat)).map (hcVertex d.toNat)).length =
        2 ^ d.toNat := by simp
    exact ⟨Nat.ne_of_lt h1, by rw [hlen]; omega, by rw [hlen]; exact h2⟩

/-- Witness for C9 at `d = 2` with the edge `(0, 1)`. -/
theorem edge_indices_valid_w :
    (0, 1) ∈ (generateHypercube 2).2 ∧
      ((0 : ℕ) ≠ 1 ∧ 0 < (generateHypercube 2).1.length ∧
        1 < (generateHypercube 2).1.length) :=
  ⟨by decide, edge_indices_valid 2 (0, 1) (by decide)⟩

/-! ### Edge counting -/

/-- The inner loop for vertex `i` emits one edge per clear bit of `i`
below `d`. -/
theorem inner_length (d i : ℕ) :
    ((List.range d).filterMap (fun j =>
        let neighbor := i ^^^ 2 ^ j
        if i < neighbor then some (i, neighbor) else none)).length =
      ∑ j ∈ Finset.range d, (if Nat.testBit i j = false then 1 else 0) := by
  induction d with
  | zero => rfl
  | succ n ih =>
    rw [List.range_succ, List.filterMap_append, List.length_append, ih,
      Finset.sum_range_succ]
    by_cases hb : Nat.testBit i n = false
    · have hlt : i < i ^^^ 2 ^ n := (lt_xor_two_pow_iff i n).mpr hb
      rw [if_pos hb]
      simp [List.filterMap, hlt]
    · have hbt : Nat.testBit i n = true := by
        cases hx : Nat.testBit i n with
        | false => exact absurd hx hb
        | true => rfl
      have hlt : ¬i < i ^^^ 2 ^ n := by
        rw [lt_xor_two_pow_iff, hbt]
        simp
      rw [if_neg hb]
      simp [List.filterMap, hlt]

/-- Sum of a list map over `range` is a `Finset.range` sum. -/
theorem sum_map_range (n : ℕ) (f : ℕ → ℕ) :
    ((List.range n).map f).sum = ∑ i ∈ Finset.range n, f i := by
  induction n with
  | zero => rfl
  | succ m ih =>
    rw [List.range_succ, List.map_append, List.sum_append, ih,
      Finset.sum_range_succ]
    simp

/-- Edge list length as a double sum over vertices and clear bits. -/
theorem hcEdges_length_sum (d : ℕ) :
    (hcEdges d).length =
      ∑ i ∈ Finset.range (2 ^ d), ∑ j ∈ Finset.range d,
        (if Nat.testBit i j = false then 1 else 0) := by
  rw [hcEdges, List.flatMap, List.length_flatten, List.map_map, ← sum_map_range]
  congr 1
  refine List.map_congr_left ?_
  intro i _
  exact inner_length d i

/-- Among the `2^d` vertex indices, exactly half have bit `j` clear,
for any `j < d`. -/
theorem count_bit_clear (d : ℕ) : ∀ j < d,
    (∑ i ∈ Finset.range (2 ^ d), (if Nat.testBit i j = false then 1 else 0)) =
      2 ^ (d - 1) := by
  induction d with
  | zero => omega
  | succ n ih =>
    intro j hj
    have hpow : (2 : ℕ) ^ (n + 1) = 2 ^ n + 2 ^ n := by ring
    rw [hpow, Finset.sum_range_add]
    rcases Nat.lt_succ_iff_lt_or_eq.mp hj with hjn | hje
    · have hhigh : (∑ i ∈ Finset.range (2 ^ n),
          (if Nat.testBit (2 ^ n + i) j = false then 1 else 0)) =
          ∑ i ∈ Finset.range (2 ^ n), (if Nat.testBit i j = false then 1 else 0) := by
        refine Finset.sum_congr rfl fun i _ => ?_
        rw [Nat.testBit_two_pow_add_gt hjn]
      rw [hhigh, ih j hjn]
      cases n with
      | zero => omega
      | succ m =>
        have h1 : m + 1 - 1 = m := rfl
        have h2 : m + 1 + 1 - 1 = m + 1 := rfl
        rw [h1, h2, pow_succ]
        omega
    · rw [hje]
      have hlow : (∑ i ∈ Finset.range (2 ^ n),
          (if Nat.testBit i n = false then 1 else 0)) = 2 ^ n := by
        have hc : ∀ i ∈ Finset.range (2 ^ n),
            (if Nat.testBit i n = false then 1 else 0) = 1 := by
          intro i hi
          rw [if_pos (Nat.testBit_lt_two_pow (Finset.mem_range.mp hi))]
        rw [Finset.sum_congr rfl hc, Finset.sum_const, Finset.card_range,
          smul_eq_mul, mul_one]
      have hhigh : (∑ i ∈ Finset.range (2 ^ n),
          (if Nat.testBit (2 ^ n + i) n = false then 1 else 0)) = 0 := by
        refine Finset.sum_eq_zero fun i hi => ?_
        rw [Nat.testBit_two_pow_add_eq,
          Nat.testBit_lt_two_pow (Finset.mem_range.mp hi)]
        simp
      rw [hlow, hhigh]
      simp

/-- The generated edge list has exactly `d·2^(d-1)` entries. -/
theorem hcEdges_length (d : ℕ) : (hcEdges d).length = d * 2 ^ (d - 1) := by
  rw [hcEdges_length_sum, Finset.sum_comm]
  rw [Finset.sum_congr rfl fun j hj => count_bit_clear d j (Finset.mem_range.mp hj)]
  rw [Finset.sum_const, Finset.card_range, smul_eq_mul]

/-! ### C2: edge count -/

/-- C2: for every dimension `d ≥ 0`, `generateHypercube d` returns exactly
`d·2^(d-1)` edges; at `d = 0` this value is `0`, matching the empty edge
list of the zero-dimensional case. -/
theorem generate_edge_count (d : ℤ) (hd : 0 ≤ d) :
    (generateHypercube d).2.length = d.toNat * 2 ^ (d.toNat - 1) := by
  rcases lt_or_le d 1 with h | h
  · have h0 : d = 0 := by omega
    subst h0
    rfl
  · rw [generateHypercube_pos d h]
    exact hcEdges_length d.toNat

/-- Witness for C2 at `d = 3` (12 edges). -/
theorem generate_edge_count_w :
    (0 : ℤ) ≤ 3 ∧ (generateHypercube 3).2.length =
      (3 : ℤ).toNat * 2 ^ ((3 : ℤ).toNat - 1) :=
  ⟨by norm_num, generate_edge_count 3 (by norm_num)⟩

/-! ### C3: vertex coordinates -/

/-- C3: for `d ≥ 1` and `i < 2^d`, the `i`-th vertex of `generateHypercube d`
has exactly `d` coordinates, and its `j`-th coordinate (`j < d`) is `0.5`
when bit `j` of `i` is set and `-0.5` otherwise (vertex list in binary index
order, so the `i`-th list entry is vertex index `i`). -/
theorem generate_vertex_coords (d : ℤ) (hd : 1 ≤ d) (i j : ℕ)
    (hi : i < 2 ^ d.toNat) (hj : j < d.toNat) :
    ((generateHypercube d).1.getD i []).length = d.toNat ∧
      ((generateHypercube d).1.getD i []).getD j 0 =
        if Nat.testBit i j then (0.5 : ℚ) else -0.5 := by
  rw [generateHypercube_pos d hd]
  have hv : ((List.range (2 ^ d.toNat)).map (hcVertex d.toNat)).getD i [] =
      hcVertex d.toNat i := by
    rw [List.getD_eq_getElem?_getD, List.getElem?_map, List.getElem?_range hi]
    rfl
  refine ⟨?_, ?_⟩
  · rw [hv]; simp [hcVertex]
  · rw [hv, hcVertex, List.getD_eq_getElem?_getD, List.getElem?_map,
      List.getElem?_range hj]
    rfl

/-- Witness for C3 at `d = 2`, `i = 2`, `j = 1` (bit set, coordinate `0.5`). -/
theorem generate_vertex_coords_w :
    (1 : ℤ) ≤ 2 ∧ 2 < 2 ^ (2 : ℤ).toNat ∧ 1 < (2 : ℤ).toNat ∧
      (((generateHypercube 2).1.getD 2 []).length = (2 : ℤ).toNat ∧
        ((generateHypercube 2).1.getD 2 []).getD 1 0 =
          if Nat.testBit 2 1 then (0.5 : ℚ) else -0.5) :=
  ⟨by norm_num, by decide, by decide,
    generate_vertex_coords 2 (by norm_num) 2 1 (by decide) (by decide)⟩

/-! ### C6: fixed projections at low dimensions -/

/-- C6: the projection returns fixed points at low dimensions: `[(0,0)]` for
dimension 0 (any size), `[(-50,0),(50,0)]` for dimension 1 at size 100, and
`[(-50,-50),(50,-50),(-50,50),(50,50)]`, in that order, for dimension 2 at
size 100 — for any input vertex list. -/
theorem projection_low_fixed (vertices : List (List ℝ)) (size : ℝ) :
    projectedVertices vertices 0 size = [(0, 0)] ∧
      projectedVertices vertices 1 100 = [(-50, 0), (50, 0)] ∧
      projectedVertices vertices 2 100 =
        [(-50, -50), (50, -50), (-50, 50), (50, 50)] := by
  refine ⟨rfl, ?_, ?_⟩ <;> · rw [projectedVertices]; norm_num

/-! ### C10: projection at dimensions 0, 1, 2 ignores its vertex input -/

/-- C10: for dimensions 0, 1 and 2 the projection output does not depend on
the input vertex list: any two inputs give identical output. -/
theorem projection_low_independent (d : ℤ) (hd : d = 0 ∨ d = 1 ∨ d = 2)
    (vs1 vs2 : List (List ℝ)) (size : ℝ) :
    projectedVertices vs1 d size = projectedVertices vs2 d size := by
  rcases hd with h | h | h <;> subst h <;> rfl

/-- Witness for C10 at `d = 2` with an empty and a non-empty input. -/
theorem projection_low_independent_w :
    ((2 : ℤ) = 0 ∨ (2 : ℤ) = 1 ∨ (2 : ℤ) = 2) ∧
      projectedVertices [] 2 100 = projectedVertices [[1, 2]] 2 100 :=
  ⟨by norm_num, projection_low_independent 2 (by norm_num) [] [[1, 2]] 100⟩

/-! ### C5: generic angular projection -/

/-- C5: for `d ≥ 3`, the projection maps each input vertex `p`, in input
order, to `(S·Σ_k p_k·cos(πk/(d-1.5)), S·Σ_k p_k·sin(πk/(d-1.5)))` where
`S = size·2.2/(d-1)` and `k` ranges over `[0, d)`. -/
theorem projection_high_dim (d : ℤ) (hd : 3 ≤ d) (vertices : List (List ℝ))
    (size : ℝ) :
    projectedVertices vertices d size =
      vertices.map (fun p =>
        (size * 2.2 / ((d : ℝ) - 1) *
            ∑ k ∈ Finset.range d.toNat,
              p.getD k 0 * Real.cos (Real.pi * k / ((d : ℝ) - 1.5)),
          size * 2.2 / ((d : ℝ) - 1) *
            ∑ k ∈ Finset.range d.toNat,
              p.getD k 0 * Real.sin (Real.pi * k / ((d : ℝ) - 1.5)))) := by
  rw [projectedVertices, if_neg (by omega), if_neg (by omega),
    if_neg (by omega)]
  refine List.map_congr_left fun p _ => ?_
  exact Prod.ext (mul_comm _ _) (mul_comm _ _)

/-- Witness for C5 at `d = 3`, size `2`, with one concrete vertex. -/
theorem projection_high_dim_w :
    (3 : ℤ) ≤ 3 ∧ projectedVertices [[1, 0, 0]] 3 2 =
      ([[1, 0, 0]] : List (List ℝ)).map (fun p =>
        (2 * 2.2 / (((3 : ℤ) : ℝ) - 1) *
            ∑ k ∈ Finset.range (3 : ℤ).toNat,
              p.getD k 0 * Real.cos (Real.pi * k / (((3 : ℤ) : ℝ) - 1.5)),
          2 * 2.2 / (((3 : ℤ) : ℝ) - 1) *
            ∑ k ∈ Finset.range (3 : ℤ).toNat,
              p.getD k 0 * Real.sin (Real.pi * k / (((3 : ℤ) : ℝ) - 1.5)))) :=
  ⟨by norm_num, projection_high_dim 3 (by norm_num) [[1, 0, 0]] 2⟩

/-! ### C7: output length of the projection -/

/-- Counterexample to C7 as stated: with the empty input vertex list,
dimension 2 and size 100, the projection returns 4 points, not 0. -/
theorem projection_length_cex :
    (projectedVertices [] 2 100).length = 4 ∧
      ([] : List (List ℝ)).length = 0 :=
  ⟨rfl, rfl⟩

/-- C7 (amended): when the projector is fed the vertex list produced by the
generator for the same dimension — as the component does — the output has
exactly one 2D point per input vertex, for every dimension and size; in
particular a negative dimension gives an empty input and an empty output. -/
theorem projection_length_generated (d : ℤ) (size : ℝ) :
    (projectedVertices (generatedVerticesReal d) d size).length =
      (generatedVerticesReal d).length := by
  by_cases h0 : d = 0
  · subst h0; rfl
  by_cases h1 : d = 1
  · subst h1; rfl
  by_cases h2 : d = 2
  · subst h2; rfl
  rw [projectedVertices, if_neg h0, if_neg h1, if_neg h2, List.length_map]

end HypercubeApp
